import Mathlib

/-!
# ThreadPool (dbr::cc::ThreadPool) — interleaving model of `ThreadPool.cpp`

The pool is embedded as a transition system.  Every worker thread carries a
program counter that ranges over the shared-memory accesses of
`ThreadPool::threadTask` (one counter value per read, write or lock
operation, so that every interleaving the source admits between two such
accesses is an interleaving of the model).  The members `threadsWaiting`,
`terminate` and `paused` are declared in `ThreadPool.hpp`; they are read here
as sequentially consistent cells.

Three lists (`submitted`, `dequeued`, `completed`) are history variables: no
transition reads them, they only record what happened.

A blocked worker may wake up at any time (`Action.wake`): this covers the
delivery of a notification as well as the spurious wake-ups the condition
variable is allowed to produce.  The joins at the end of the destructor and
all progress (fairness) questions are outside the model.
-/

namespace ThreadPool

/-- A job is an opaque callable; it is identified by a number. -/
abbrev Job := Nat

/-- Program counter of one worker inside `threadTask` (lines 82-115). -/
inductive PC where
  /-- line 87: about to read `terminate` at loop entry -/
  | top
  /-- line 90: about to acquire `jobsMutex` -/
  | lock
  /-- line 93: about to evaluate `jobs.empty()` -/
  | check
  /-- line 93: `jobs.empty()` was false, about to read `paused` -/
  | checkPaused
  /-- line 95: about to execute `++threadsWaiting` -/
  | inc
  /-- line 98: wait predicate, about to read `terminate` -/
  | predTerminate
  /-- line 98: wait predicate, about to evaluate `jobs.empty()` -/
  | predEmpty
  /-- line 98: wait predicate, about to read `paused` -/
  | predPaused
  /-- line 96: blocked on `jobsAvailable`, mutex released -/
  | blocked
  /-- line 96: woken up, about to re-acquire `jobsMutex` -/
  | woken
  /-- line 100: about to execute `--threadsWaiting` -/
  | dec
  /-- line 104: about to read `terminate` (last check) -/
  | recheck
  /-- lines 108-109: about to execute `jobs.front()` and `jobs.pop()` -/
  | take
  /-- line 111: holds job `j`, about to unlock the mutex -/
  | unlock (j : Job)
  /-- line 113: executing job `j` -/
  | run (j : Job)
  /-- job `j` raised a fault; `threadTask` catches nothing, the worker is gone -/
  | dead (j : Job)
  /-- left the loop through one of the two `break`s -/
  | done
  deriving DecidableEq, Repr

/-- One element of the vector `threads`: the identity of the thread and where
it currently is in `threadTask`. -/
structure Worker where
  id : Nat
  pc : PC
  deriving DecidableEq, Repr

/-- The pool object together with the control state of its workers.  The
class is declared in `ThreadPool.hpp`, which is not among the sources; the
members and their types are read off their use in `ThreadPool.cpp`. -/
structure State where
  /-- the vector `threads` -/
  threads : List Worker
  /-- the queue `jobs`, front first -/
  jobs : List Job
  /-- the counter `threadsWaiting`, initialised to 0 (line 8) -/
  threadsWaiting : Int
  /-- the flag `terminate`, initialised to false (line 9) -/
  terminate : Bool
  /-- the flag `paused`, initialised to false (line 10) -/
  paused : Bool
  /-- index of the worker that owns `jobsMutex`, if any -/
  mutex : Option Nat
  /-- history: every job ever appended to the queue, in order -/
  submitted : List Job
  /-- history: every job ever taken from the queue, in order -/
  dequeued : List Job
  /-- history: every job whose call returned, in order -/
  completed : List Job
  deriving DecidableEq, Repr

/-- The loop of the constructor (lines 15-16).  The counter `i` is declared
`auto i = 0u`, an `unsigned int` (32 bits wide), so `++i` wraps at `2 ^ 32`
while `threadCount` is a `std::size_t`; `tid n` is the identity the platform
gives to the `n`-th thread it creates for this pool. -/
def spawnLoop (tid : Nat → Nat) (threadCount : Nat) :
    Nat → Nat → List Worker → Option (List Worker)
  | 0, _, _ => none
  | fuel + 1, i, threads =>
    if i < threadCount then
      spawnLoop tid threadCount fuel ((i + 1) % 4294967296)
        (threads ++ [⟨tid threads.length, PC.top⟩])
    else
      some threads

/-- `ThreadPool::ThreadPool(threadCount)` (lines 7-17).  Workers touch neither
`threads` nor the constructor's locals, so their steps commute with the rest
of the loop and construction is taken as one step. -/
def construct (tid : Nat → Nat) (fuel threadCount : Nat) : Option State :=
  (spawnLoop tid threadCount fuel 0 []).map fun ths =>
    { threads := ths, jobs := [], threadsWaiting := 0, terminate := false,
      paused := false, mutex := none, submitted := [], dequeued := [],
      completed := [] }

/-- `ThreadPool::threadCount()` (lines 35-38). -/
def threadCount (s : State) : Nat := s.threads.length

/-- `ThreadPool::waitingJobs()` (lines 40-44), evaluated while the caller owns
the mutex. -/
def waitingJobs (s : State) : Nat := s.jobs.length

/-- `ThreadPool::ids()` (lines 46-53): `std::transform` over `threads`. -/
def ids (s : State) : List Nat := s.threads.map fun t => t.id

/-- The loop `while(!jobs.empty()) jobs.pop();` of `clear` (lines 59-60). -/
def popAll : List Job → List Job
  | [] => []
  | _ :: rest => popAll rest

/-- `ThreadPool::clear()` (lines 55-61), the part executed under the lock. -/
def clear (s : State) : State := { s with jobs := popAll s.jobs }

/-- `jobsAvailable.notify_all()`: every blocked worker becomes runnable. -/
def notifyAll (s : State) : State :=
  { s with threads := s.threads.map fun t =>
      if t.pc = PC.blocked then ⟨t.id, PC.woken⟩ else t }

/-- Modelled from the spec: the wake-up performed by the submission operation
of `ThreadPool.hpp`, which is not among the sources (section 4.1, "wakes at
least one idle worker").  It is a `notify_one` on `jobsAvailable` with `w` the
waiter the platform picks; when worker `w` is not blocked nobody is woken. -/
def notifyOne (s : State) (w : Nat) : State :=
  match s.threads[w]? with
  | some ⟨id, PC.blocked⟩ => { s with threads := s.threads.set w ⟨id, PC.woken⟩ }
  | _ => s

/-- Modelled from the spec: the submission operation, declared in
`ThreadPool.hpp`, which is not among the sources.  Section 4.1: it appends the
job to the tail under the exclusive lock and wakes an idle worker. -/
def submit (s : State) (j : Job) (w : Nat) : State :=
  notifyOne { s with jobs := s.jobs ++ [j], submitted := s.submitted ++ [j] } w

/-- One atomic step of `threadTask` for worker `i` standing at `pc`: the new
program counter and the new shared state, or `none` when the worker cannot
move (blocked, gone, mutex taken) or the step is undefined (`front` on an
empty queue). -/
def threadTask (s : State) (i : Nat) : PC → Option (PC × State)
  | PC.top => if s.terminate then some (PC.done, s) else some (PC.lock, s)
  | PC.lock =>
    if s.mutex = none then some (PC.check, { s with mutex := some i }) else none
  | PC.check => if s.jobs.isEmpty then some (PC.inc, s) else some (PC.checkPaused, s)
  | PC.checkPaused => if s.paused then some (PC.inc, s) else some (PC.recheck, s)
  | PC.inc => some (PC.predTerminate, { s with threadsWaiting := s.threadsWaiting + 1 })
  | PC.predTerminate =>
    if s.terminate then some (PC.dec, s) else some (PC.predEmpty, s)
  | PC.predEmpty =>
    if s.jobs.isEmpty then some (PC.blocked, { s with mutex := none })
    else some (PC.predPaused, s)
  | PC.predPaused =>
    if s.paused then some (PC.blocked, { s with mutex := none }) else some (PC.dec, s)
  | PC.blocked => none
  | PC.woken =>
    if s.mutex = none then some (PC.predTerminate, { s with mutex := some i }) else none
  | PC.dec => some (PC.recheck, { s with threadsWaiting := s.threadsWaiting - 1 })
  | PC.recheck =>
    if s.terminate then some (PC.done, { s with mutex := none }) else some (PC.take, s)
  | PC.take =>
    match s.jobs with
    | [] => none
    | j :: rest => some (PC.unlock j, { s with jobs := rest, dequeued := s.dequeued ++ [j] })
  | PC.unlock j => some (PC.run j, { s with mutex := none })
  | PC.run j => some (PC.top, { s with completed := s.completed ++ [j] })
  | PC.dead _ => none
  | PC.done => none

/-- What can happen next in the system. -/
inductive Action where
  /-- worker `i` executes its next step of `threadTask` -/
  | worker (i : Nat)
  /-- blocked worker `i` wakes up (notification delivered, or spuriously) -/
  | wake (i : Nat)
  /-- the job run by worker `i` raises a fault -/
  | fail (i : Nat)
  /-- some thread submits job `j`; `notify_one` picks worker `w` -/
  | submit (j : Job) (w : Nat)
  /-- some thread calls `clear()` -/
  | clear
  /-- line 65: `paused = state` -/
  | setPaused (b : Bool)
  /-- lines 25 and 69: `jobsAvailable.notify_all()` -/
  | notifyAll
  /-- line 24: `terminate = true` -/
  | setTerminate
  deriving DecidableEq, Repr

/-- The transition function; `none` means the action is not enabled. -/
def step (s : State) : Action → Option State
  | Action.worker i =>
    match s.threads[i]? with
    | none => none
    | some t =>
      (threadTask s i t.pc).map fun r =>
        { r.2 with threads := r.2.threads.set i ⟨t.id, r.1⟩ }
  | Action.wake i =>
    match s.threads[i]? with
    | some ⟨id, PC.blocked⟩ => some { s with threads := s.threads.set i ⟨id, PC.woken⟩ }
    | _ => none
  | Action.fail i =>
    match s.threads[i]? with
    | some ⟨id, PC.run j⟩ => some { s with threads := s.threads.set i ⟨id, PC.dead j⟩ }
    | _ => none
  | Action.submit j w => if s.mutex = none then some (submit s j w) else none
  | Action.clear => if s.mutex = none then some (clear s) else none
  | Action.setPaused b => some { s with paused := b }
  | Action.notifyAll => some (notifyAll s)
  | Action.setTerminate => some { s with terminate := true }

/-- Run a schedule. -/
def exec (s : State) : List Action → Option State
  | [] => some s
  | a :: rest =>
    match step s a with
    | none => none
    | some s' => exec s' rest

/-- The states the pool built with `threadCount = k` can be in. -/
def Reachable (tid : Nat → Nat) (k : Nat) (s : State) : Prop :=
  ∃ fuel s0 sched, construct tid fuel k = some s0 ∧ exec s0 sched = some s

/-- `ThreadPool::~ThreadPool()` up to the joins (lines 21-25), run without
another thread stepping in between: `clear()`, `terminate = true`,
`notify_all()`. -/
def destructor (s : State) : State :=
  notifyAll { clear s with terminate := true }

/-- `ThreadPool::pause(state)` up to the busy loop (lines 65-69). -/
def pause (state : Bool) (s : State) : State :=
  let s1 := { s with paused := state }
  if !state then notifyAll s1 else s1

/-- The condition of the busy loop of `pause` (line 72). -/
def pauseSpins (s : State) : Bool := decide (s.threadsWaiting = (s.threads.length : Int))

/-- The condition of the busy loop of `wait` (line 79). -/
def waitSpins (s : State) : Bool := decide (s.threadsWaiting ≠ (s.threads.length : Int))

/-- `ThreadPool::wait()` (lines 76-80) run on its own: the number of times the
loop body was entered and the state on return. -/
def wait : Nat → State → Option (Nat × State)
  | 0, _ => none
  | fuel + 1, s =>
    if waitSpins s then (wait fuel s).map fun r => (r.1 + 1, r.2) else some (0, s)

/-- The busy loop of `pause(false)` (line 72) run on its own. -/
def pauseLoop : Nat → State → Option (Nat × State)
  | 0, _ => none
  | fuel + 1, s =>
    if pauseSpins s then (pauseLoop fuel s).map fun r => (r.1 + 1, r.2) else some (0, s)

/-- Inside the call `jobsAvailable.wait(...)`: after `++threadsWaiting` and
before `--threadsWaiting` (lines 96-100). -/
def inWait : PC → Bool
  | PC.predTerminate | PC.predEmpty | PC.predPaused | PC.blocked | PC.woken | PC.dec => true
  | _ => false

/-- The worker owns `jobsMutex`. -/
def holdsLock : PC → Bool
  | PC.check | PC.checkPaused | PC.inc | PC.predTerminate | PC.predEmpty | PC.predPaused
  | PC.dec | PC.recheck | PC.take | PC.unlock _ => true
  | _ => false

/-- The job a worker has taken from the queue and not finished. -/
def heldJob : PC → List Job
  | PC.unlock j | PC.run j | PC.dead j => [j]
  | _ => []

/-- All jobs that were dequeued and whose call has not returned. -/
def held (s : State) : List Job := s.threads.flatMap fun t => heldJob t.pc

/-- The worker is at the dequeue or executing a job (lines 108-113). -/
def dequeuingOrRunning : PC → Bool
  | PC.take | PC.unlock _ | PC.run _ => true
  | _ => false

/-- Zero or one, as an integer. -/
def ind (b : Bool) : Int := if b then 1 else 0

/-- What a worker standing at `pc` with the mutex in hand has learnt about the
queue: after a successful emptiness test the queue is non-empty, and after
the wait predicate returned true either `terminate` was seen or the queue is
non-empty. -/
def frontOk (s : State) : PC → Bool
  | PC.checkPaused | PC.predPaused | PC.take => !s.jobs.isEmpty
  | PC.dec | PC.recheck => s.terminate || !s.jobs.isEmpty
  | _ => true

/-- The invariant of the pool. -/
structure Inv (s : State) : Prop where
  /-- the counter is the number of workers inside the condition wait -/
  count : s.threadsWaiting = ((s.threads.countP fun t => inWait t.pc : Nat) : Int)
  /-- a worker between lock and unlock is the owner of the mutex -/
  owner : ∀ (i : Nat) (t : Worker), s.threads[i]? = some t → holdsLock t.pc = true → s.mutex = some i
  /-- what the owner of the mutex learnt about the queue still holds -/
  front : ∀ (i : Nat) (t : Worker), s.threads[i]? = some t → frontOk s t.pc = true
  /-- every dequeued job has completed or is in the hands of a worker -/
  hist : s.dequeued.Perm (s.completed ++ held s)

/-- The state the constructor leaves behind when its loop runs `k` times:
`k` workers at the top of `threadTask`, everything else as initialised in
lines 8-10. -/
def fresh (tid : Nat → Nat) (k : Nat) : State :=
  { threads := (List.range k).map fun n => ⟨tid n, PC.top⟩, jobs := [],
    threadsWaiting := 0, terminate := false, paused := false, mutex := none,
    submitted := [], dequeued := [], completed := [] }

/-- How an action that is not a worker step may change one worker: not at
all, from blocked to woken (a notification), or from running to dead (the job
raised a fault). -/
def Soft (t t' : Worker) : Prop :=
  t'.id = t.id ∧
    (t'.pc = t.pc ∨ (t.pc = PC.blocked ∧ t'.pc = PC.woken) ∨
      ∃ j, t.pc = PC.run j ∧ t'.pc = PC.dead j)

/-- The action is a step of a worker. -/
def Action.isWorker : Action → Bool
  | Action.worker _ => true
  | _ => false

/-- The action is a submission. -/
def Action.isSubmit : Action → Bool
  | Action.submit _ _ => true
  | _ => false

/-- The action is a call of `clear()`. -/
def Action.isClear : Action → Bool
  | Action.clear => true
  | _ => false

/-- The jobs a schedule submits, in order. -/
def submissions : List Action → List Job
  | [] => []
  | Action.submit j _ :: rest => j :: submissions rest
  | _ :: rest => submissions rest

/-- A pool of two workers, one blocked and one just woken, with one job
pending. -/
def twoWaiting : State :=
  { threads := [⟨0, PC.blocked⟩, ⟨1, PC.woken⟩], jobs := [5], threadsWaiting := 2,
    terminate := false, paused := false, mutex := none, submitted := [5],
    dequeued := [], completed := [] }

/-- A schedule for a pool of one worker: the worker goes to sleep on the empty
queue, job 7 is submitted and wakes it, and the worker advances to the
dequeue. -/
def scheduleToTake : List Action :=
  [Action.worker 0, Action.worker 0, Action.worker 0, Action.worker 0, Action.worker 0,
   Action.worker 0, Action.submit 7 0, Action.worker 0, Action.worker 0, Action.worker 0,
   Action.worker 0, Action.worker 0, Action.worker 0]

/-- The state `scheduleToTake` leads to. -/
def atTake : State :=
  { threads := [⟨0, PC.take⟩], jobs := [7], threadsWaiting := 0, terminate := false,
    paused := false, mutex := some 0, submitted := [7], dequeued := [], completed := [] }

/-- A schedule for a pool of one worker that puts the worker to sleep on the
empty queue. -/
def scheduleToSleep : List Action :=
  [Action.worker 0, Action.worker 0, Action.worker 0, Action.worker 0, Action.worker 0,
   Action.worker 0]

/-- The state `scheduleToSleep` leads to. -/
def asleep : State :=
  { threads := [⟨0, PC.blocked⟩], jobs := [], threadsWaiting := 1, terminate := false,
    paused := false, mutex := none, submitted := [], dequeued := [], completed := [] }

/-- A worker that cannot reach the dequeue while `paused` or `terminate` is
set: it is not at the dequeue, and it is past the wait predicate only if
`terminate` is set. -/
def quiet (s : State) : PC → Bool
  | PC.take => false
  | PC.dec | PC.recheck => s.terminate
  | _ => true

/-- A worker inside the condition wait that has not seen the wait predicate
come true. -/
def parked : PC → Bool
  | PC.predTerminate | PC.predEmpty | PC.blocked | PC.woken => true
  | _ => false

/-- Actions other than `pause(false)`, `clear()` and destruction. -/
def Action.keepsPause : Action → Bool
  | Action.setPaused b => b
  | Action.clear => false
  | Action.setTerminate => false
  | _ => true

/-- Steps taken by the workers themselves: a step of `threadTask`, or waking
up inside the condition wait. -/
def Action.byWorker : Action → Bool
  | Action.worker _ => true
  | Action.wake _ => true
  | _ => false

/-- A schedule for a pool of one worker: job 7 is taken and started, and job 8
is submitted. -/
def scheduleToRun : List Action :=
  scheduleToTake ++ [Action.worker 0, Action.worker 0, Action.submit 8 0]

/-- The schedule `scheduleToRun` followed by the steps of the destructor. -/
def scheduleToDestruct : List Action :=
  scheduleToRun ++ [Action.clear, Action.setTerminate, Action.notifyAll]

/-- The state `scheduleToDestruct` leads to. -/
def destructing : State :=
  { threads := [⟨0, PC.run 7⟩], jobs := [], threadsWaiting := 0, terminate := true,
    paused := false, mutex := none, submitted := [7, 8], dequeued := [7], completed := [] }

/-- While paused: two submissions, a wake-up and the steps of the worker that
re-evaluates the wait predicate and goes back to sleep. -/
def schedulePaused : List Action :=
  [Action.submit 1 0, Action.submit 2 0, Action.worker 0, Action.worker 0, Action.worker 0,
   Action.worker 0, Action.wake 0, Action.worker 0]

/-- A schedule for a pool of one worker: jobs 7 and 8 are submitted while the
worker sleeps, and the worker runs both to completion. -/
def scheduleTwoJobs : List Action :=
  scheduleToSleep ++ [Action.submit 7 0, Action.submit 8 0] ++
    List.replicate 17 (Action.worker 0)

/-- A schedule for a pool of two workers: both go to sleep on the empty queue,
then jobs 1, 2 and 3 are submitted, each notification reaching a sleeping
worker or nobody. -/
def scheduleABC : List Action :=
  List.replicate 6 (Action.worker 0) ++ List.replicate 6 (Action.worker 1) ++
    [Action.submit 1 0, Action.submit 2 1, Action.submit 3 0]

/-- The state `scheduleABC` leads to: the caller is about to enter `wait()`. -/
def pendingABC : State :=
  { threads := [⟨0, PC.woken⟩, ⟨1, PC.woken⟩], jobs := [1, 2, 3], threadsWaiting := 2,
    terminate := false, paused := false, mutex := none, submitted := [1, 2, 3],
    dequeued := [], completed := [] }

/-! ## Lists of workers -/

theorem threads_split {α : Type} (l : List α) (i : Nat) (t : α) (h : l[i]? = some t) :
    ∃ l1 l2, l = l1 ++ t :: l2 ∧ l1.length = i ∧ ∀ t', l.set i t' = l1 ++ t' :: l2 := by
  induction l generalizing i with
  | nil => simp at h
  | cons a l ih =>
    cases i with
    | zero =>
      simp at h
      subst h
      exact ⟨[], l, rfl, rfl, fun _ => rfl⟩
    | succ n =>
      simp at h
      obtain ⟨l1, l2, h1, h2, h3⟩ := ih n h
      refine ⟨a :: l1, l2, by simp [h1], by simp [h2], fun t' => ?_⟩
      simp [List.set, h3 t']

theorem countP_set_int {α : Type} (p : α → Bool) (l : List α) (i : Nat) (t t' : α)
    (h : l[i]? = some t) :
    ((l.set i t').countP p : Int) = (l.countP p : Int) - ind (p t) + ind (p t') := by
  obtain ⟨l1, l2, h1, -, h3⟩ := threads_split l i t h
  rw [h3 t', h1]
  simp only [List.countP_append, List.countP_cons, ind]
  cases p t <;> cases p t' <;> simp <;> omega

theorem flatMap_set_perm {α β : Type} (f : α → List β) (l : List α) (i : Nat) (t : α)
    (h : l[i]? = some t) :
    ∃ rest, (l.flatMap f).Perm (f t ++ rest) ∧
      ∀ t', ((l.set i t').flatMap f).Perm (f t' ++ rest) := by
  obtain ⟨l1, l2, h1, -, h3⟩ := threads_split l i t h
  refine ⟨l1.flatMap f ++ l2.flatMap f, ?_, fun t' => ?_⟩
  · rw [h1]
    simp only [List.flatMap_append, List.flatMap_cons]
    rw [← List.append_assoc, ← List.append_assoc]
    exact List.Perm.append_right _ List.perm_append_comm
  · rw [h3 t']
    simp only [List.flatMap_append, List.flatMap_cons]
    rw [← List.append_assoc, ← List.append_assoc]
    exact List.Perm.append_right _ List.perm_append_comm


/-! ## Effect of one step of `threadTask` -/

theorem threadTask_threads {s s1 : State} {i : Nat} {pc pc' : PC}
    (h : threadTask s i pc = some (pc', s1)) : s1.threads = s.threads := by
  cases pc <;> simp only [threadTask] at h <;> (try split at h) <;> simp at h <;>
    obtain ⟨-, rfl⟩ := h <;> rfl

theorem threadTask_terminate {s s1 : State} {i : Nat} {pc pc' : PC}
    (h : threadTask s i pc = some (pc', s1)) : s1.terminate = s.terminate := by
  cases pc <;> simp only [threadTask] at h <;> (try split at h) <;> simp at h <;>
    obtain ⟨-, rfl⟩ := h <;> rfl

theorem threadTask_paused {s s1 : State} {i : Nat} {pc pc' : PC}
    (h : threadTask s i pc = some (pc', s1)) : s1.paused = s.paused := by
  cases pc <;> simp only [threadTask] at h <;> (try split at h) <;> simp at h <;>
    obtain ⟨-, rfl⟩ := h <;> rfl

theorem threadTask_submitted {s s1 : State} {i : Nat} {pc pc' : PC}
    (h : threadTask s i pc = some (pc', s1)) : s1.submitted = s.submitted := by
  cases pc <;> simp only [threadTask] at h <;> (try split at h) <;> simp at h <;>
    obtain ⟨-, rfl⟩ := h <;> rfl

theorem threadTask_count {s s1 : State} {i : Nat} {pc pc' : PC}
    (h : threadTask s i pc = some (pc', s1)) :
    s1.threadsWaiting = s.threadsWaiting - ind (inWait pc) + ind (inWait pc') := by
  cases pc <;> simp only [threadTask] at h <;> (try split at h) <;> simp at h <;>
    obtain ⟨rfl, rfl⟩ := h <;> simp [ind, inWait]

theorem threadTask_mutex {s s1 : State} {i : Nat} {pc pc' : PC}
    (h : threadTask s i pc = some (pc', s1)) :
    (holdsLock pc = true → holdsLock pc' = true → s1.mutex = s.mutex) ∧
    (holdsLock pc = true → holdsLock pc' = false → s1.mutex = none) ∧
    (holdsLock pc = false → holdsLock pc' = true → s.mutex = none ∧ s1.mutex = some i) ∧
    (holdsLock pc = false → holdsLock pc' = false → s1.mutex = s.mutex) := by
  cases pc <;> simp only [threadTask] at h <;> (try split at h) <;> simp at h <;>
    obtain ⟨rfl, rfl⟩ := h <;> simp_all [holdsLock]

theorem threadTask_jobs {s s1 : State} {i : Nat} {pc pc' : PC}
    (h : threadTask s i pc = some (pc', s1)) :
    s1.jobs = s.jobs ∨ pc = PC.take := by
  cases pc <;> simp only [threadTask] at h <;> (try split at h) <;> simp at h <;>
    obtain ⟨-, rfl⟩ := h <;> simp

theorem threadTask_front {s s1 : State} {i : Nat} {pc pc' : PC}
    (h : threadTask s i pc = some (pc', s1)) (hf : frontOk s pc = true) :
    frontOk s1 pc' = true := by
  cases pc <;> simp only [threadTask] at h <;> (try split at h) <;> simp at h <;>
    obtain ⟨rfl, rfl⟩ := h <;> simp_all [frontOk]

theorem threadTask_hist {s s1 : State} {i : Nat} {pc pc' : PC}
    (h : threadTask s i pc = some (pc', s1)) (rest : List Job)
    (hp : s.dequeued.Perm (s.completed ++ (heldJob pc ++ rest))) :
    s1.dequeued.Perm (s1.completed ++ (heldJob pc' ++ rest)) := by
  cases pc <;> simp only [threadTask] at h <;> (try split at h) <;> simp at h <;>
    obtain ⟨rfl, rfl⟩ := h <;> simp_all [heldJob]
  exact (List.perm_append_singleton _ _).trans
    ((List.Perm.cons _ hp).trans List.perm_middle.symm)

/-! ## The invariant is inductive -/

theorem frontOk_of_free (s : State) {pc : PC} (h : holdsLock pc = false) :
    frontOk s pc = true := by
  cases pc <;> simp_all [holdsLock, frontOk]

theorem frontOk_congr (s s1 : State) (hj : s1.jobs = s.jobs)
    (ht : s1.terminate = s.terminate) (pc : PC) : frontOk s1 pc = frontOk s pc := by
  cases pc <;> simp [frontOk, hj, ht]

theorem getElem?_set_cases {α : Type} {l : List α} {i j : Nat} {a u : α}
    (h : (l.set i a)[j]? = some u) : (j = i ∧ u = a) ∨ (j ≠ i ∧ l[j]? = some u) := by
  by_cases hij : i = j
  · subst hij
    rw [List.getElem?_set] at h
    simp only [if_true] at h
    split at h
    · exact Or.inl ⟨rfl, (Option.some.inj h).symm⟩
    · cases h
  · rw [List.getElem?_set_ne hij] at h
    exact Or.inr ⟨fun e => hij e.symm, h⟩

theorem inv_update {s : State} (s1 : State) {i : Nat} {t : Worker} {pc' : PC} (h : Inv s)
    (ht : s.threads[i]? = some t)
    (hthreads : s1.threads = s.threads)
    (hcount : s1.threadsWaiting = s.threadsWaiting - ind (inWait t.pc) + ind (inWait pc'))
    (hmutex : (holdsLock t.pc = true → holdsLock pc' = true → s1.mutex = s.mutex) ∧
      (holdsLock t.pc = true → holdsLock pc' = false → s1.mutex = none) ∧
      (holdsLock t.pc = false → holdsLock pc' = true → s.mutex = none ∧ s1.mutex = some i) ∧
      (holdsLock t.pc = false → holdsLock pc' = false → s1.mutex = s.mutex))
    (hfront : frontOk s1 pc' = true)
    (hframe : (s1.jobs = s.jobs ∧ s1.terminate = s.terminate) ∨ holdsLock t.pc = true)
    (hhist : ∀ rest, s.dequeued.Perm (s.completed ++ (heldJob t.pc ++ rest)) →
      s1.dequeued.Perm (s1.completed ++ (heldJob pc' ++ rest))) :
    Inv { s1 with threads := s1.threads.set i ⟨t.id, pc'⟩ } := by
  have others : ∀ j u, j ≠ i → s.threads[j]? = some u → holdsLock u.pc = true →
      holdsLock t.pc = false ∧ holdsLock pc' = false := by
    intro j u hji hu hl
    have hm := h.owner j u hu hl
    have h1 : holdsLock t.pc = false := by
      cases hc : holdsLock t.pc with
      | false => rfl
      | true =>
        have := h.owner i t ht hc
        rw [hm] at this
        exact absurd (Option.some.inj this) hji
    refine ⟨h1, ?_⟩
    cases hc : holdsLock pc' with
    | false => rfl
    | true =>
      have := (hmutex.2.2.1 h1 hc).1
      rw [hm] at this
      cases this
  refine ⟨?_, ?_, ?_, ?_⟩
  · show s1.threadsWaiting = _
    rw [hthreads, countP_set_int (fun t => inWait t.pc) _ _ t _ ht, ← h.count, hcount]
  · intro j u hu hl
    show s1.mutex = some j
    rw [show ({ s1 with threads := s1.threads.set i ⟨t.id, pc'⟩ } : State).threads
      = s.threads.set i ⟨t.id, pc'⟩ from by rw [← hthreads]] at hu
    rcases getElem?_set_cases hu with ⟨rfl, rfl⟩ | ⟨hji, hu'⟩
    · cases hc : holdsLock t.pc with
      | true => rw [hmutex.1 hc hl]; exact h.owner _ t ht hc
      | false => exact (hmutex.2.2.1 hc hl).2
    · obtain ⟨h1, h2⟩ := others j u hji hu' hl
      rw [hmutex.2.2.2 h1 h2]
      exact h.owner j u hu' hl
  · intro j u hu
    rw [show ({ s1 with threads := s1.threads.set i ⟨t.id, pc'⟩ } : State).threads
      = s.threads.set i ⟨t.id, pc'⟩ from by rw [← hthreads]] at hu
    rcases getElem?_set_cases hu with ⟨rfl, rfl⟩ | ⟨hji, hu'⟩
    · exact (frontOk_congr s1 _ rfl rfl pc').trans hfront
    · cases hl : holdsLock u.pc with
      | false =>
        have := frontOk_of_free s1 hl
        cases hp : u.pc <;> simp_all [frontOk]
      | true =>
        obtain ⟨h1, -⟩ := others j u hji hu' hl
        rcases hframe with ⟨hj, hte⟩ | hc
        · have h3 := frontOk_congr s s1 hj hte u.pc
          have h4 := h.front j u hu'
          cases hp : u.pc <;> simp_all [frontOk]
        · rw [h1] at hc
          cases hc
  · obtain ⟨rest, h1, h2⟩ := flatMap_set_perm (fun t => heldJob t.pc) s.threads i t ht
    have h3 := hhist rest (h.hist.trans (List.Perm.append_left _ h1))
    have h4 := h2 ⟨t.id, pc'⟩
    show s1.dequeued.Perm (s1.completed ++ held _)
    unfold held
    rw [show ({ s1 with threads := s1.threads.set i ⟨t.id, pc'⟩ } : State).threads
      = s.threads.set i ⟨t.id, pc'⟩ from by rw [← hthreads]]
    exact h3.trans (List.Perm.append_left _ h4.symm)

theorem inv_frame {s s1 : State} (h : Inv s) (hthreads : s1.threads = s.threads)
    (hc : s1.threadsWaiting = s.threadsWaiting) (hm : s1.mutex = s.mutex)
    (hd : s1.dequeued = s.dequeued) (hcomp : s1.completed = s.completed)
    (hf : ∀ (i : Nat) (t : Worker), s.threads[i]? = some t → frontOk s t.pc = true →
      frontOk s1 t.pc = true) : Inv s1 := by
  refine ⟨?_, ?_, ?_, ?_⟩
  · rw [hc, hthreads]; exact h.count
  · intro i t ht hl
    rw [hthreads] at ht
    rw [hm]; exact h.owner i t ht hl
  · intro i t ht
    rw [hthreads] at ht
    exact hf i t ht (h.front i t ht)
  · unfold held
    rw [hd, hcomp, hthreads]; exact h.hist

theorem inv_repc {s : State} {i : Nat} {id : Nat} {pc pc' : PC} (h : Inv s)
    (ht : s.threads[i]? = some ⟨id, pc⟩)
    (hw : inWait pc' = inWait pc) (hl : holdsLock pc = false) (hl' : holdsLock pc' = false)
    (hh : heldJob pc' = heldJob pc) :
    Inv { s with threads := s.threads.set i ⟨id, pc'⟩ } := by
  refine inv_update s (t := ⟨id, pc⟩) h ht rfl ?_ ?_ (frontOk_of_free s hl')
    (Or.inl ⟨rfl, rfl⟩) ?_
  · simp [hw]
  · simp [hl, hl']
  · intro rest hp
    simpa [hh] using hp

theorem notifyOne_inv {s : State} (h : Inv s) (w : Nat) : Inv (notifyOne s w) := by
  unfold notifyOne
  split
  · next id heq => exact inv_repc h heq rfl rfl rfl rfl
  · exact h

theorem frontOk_mono (s s1 : State) (hj : s.jobs ≠ [] → s1.jobs ≠ [])
    (ht : s.terminate = true → s1.terminate = true) (pc : PC)
    (h : frontOk s pc = true) : frontOk s1 pc = true := by
  cases pc <;> simp_all [frontOk] <;> tauto

theorem notifyAll_inv {s : State} (h : Inv s) : Inv (notifyAll s) := by
  have key : ∀ (i : Nat) (t : Worker), (notifyAll s).threads[i]? = some t →
      ∃ u, s.threads[i]? = some u ∧ inWait t.pc = inWait u.pc ∧
        holdsLock t.pc = holdsLock u.pc ∧ frontOk s t.pc = frontOk s u.pc := by
    intro i t ht
    simp only [notifyAll, List.getElem?_map] at ht
    cases hu : s.threads[i]? with
    | none => simp [hu] at ht
    | some u =>
      refine ⟨u, rfl, ?_⟩
      simp only [hu, Option.map_some', Option.some.injEq] at ht
      subst ht
      split
      · next hb => simp [hb, inWait, holdsLock, frontOk]
      · exact ⟨rfl, rfl, rfl⟩
  refine ⟨?_, ?_, ?_, ?_⟩
  · show s.threadsWaiting = _
    rw [h.count]
    congr 1
    simp only [notifyAll, List.countP_map]
    congr 1
    funext t
    simp only [Function.comp]
    split
    · next hb => simp [hb, inWait]
    · rfl
  · intro i t ht hl
    obtain ⟨u, hu, -, h2, -⟩ := key i t ht
    exact h.owner i u hu (h2 ▸ hl)
  · intro i t ht
    obtain ⟨u, hu, -, -, h3⟩ := key i t ht
    show frontOk s t.pc = true
    rw [h3]; exact h.front i u hu
  · show s.dequeued.Perm (s.completed ++ held (notifyAll s))
    have : held (notifyAll s) = held s := by
      simp only [held, notifyAll, List.flatMap_map]
      congr 1
      funext t
      split
      · next hb => simp [hb, heldJob]
      · rfl
    rw [this]; exact h.hist

theorem step_inv {s s' : State} {a : Action} (h : Inv s) (hs : step s a = some s') :
    Inv s' := by
  cases a with
  | worker i =>
    simp only [step] at hs
    split at hs
    · cases hs
    · next t ht =>
      cases hr : threadTask s i t.pc with
      | none => simp [hr] at hs
      | some r =>
        obtain ⟨pc', s1⟩ := r
        simp only [hr, Option.map_some', Option.some.injEq] at hs
        subst hs
        refine inv_update s1 h ht (threadTask_threads hr) (threadTask_count hr)
          (threadTask_mutex hr) (threadTask_front hr (h.front i t ht)) ?_
          (fun rest => threadTask_hist hr rest)
        rcases threadTask_jobs hr with hj | hp
        · exact Or.inl ⟨hj, threadTask_terminate hr⟩
        · exact Or.inr (by rw [hp]; rfl)
  | wake i =>
    simp only [step] at hs
    split at hs
    · next id heq =>
      cases hs
      exact inv_repc h heq rfl rfl rfl rfl
    · cases hs
  | fail i =>
    simp only [step] at hs
    split at hs
    · next id j heq =>
      cases hs
      exact inv_repc h heq rfl rfl rfl rfl
    · cases hs
  | submit j w =>
    simp only [step] at hs
    split at hs
    · cases hs
      refine notifyOne_inv
        (s := { s with jobs := s.jobs ++ [j], submitted := s.submitted ++ [j] })
        (inv_frame h rfl rfl rfl rfl rfl ?_) w
      intro i t _ hf
      exact frontOk_mono s { s with jobs := s.jobs ++ [j], submitted := s.submitted ++ [j] }
        (by simp) (fun e => e) t.pc hf
    · cases hs
  | clear =>
    simp only [step] at hs
    split at hs
    · next hm =>
      cases hs
      refine inv_frame h rfl rfl rfl rfl rfl ?_
      intro i t ht _
      cases hl : holdsLock t.pc with
      | false => exact frontOk_of_free _ hl
      | true =>
        have := h.owner i t ht hl
        rw [hm] at this
        cases this
    · cases hs
  | setPaused b =>
    simp only [step, Option.some.injEq] at hs
    subst hs
    exact inv_frame h rfl rfl rfl rfl rfl
      (fun i t _ hf => (frontOk_congr s _ rfl rfl t.pc).trans hf)
  | notifyAll =>
    simp only [step, Option.some.injEq] at hs
    subst hs
    exact notifyAll_inv h
  | setTerminate =>
    simp only [step, Option.some.injEq] at hs
    subst hs
    exact inv_frame h rfl rfl rfl rfl rfl
      (fun i t _ hf =>
        frontOk_mono s { s with terminate := true } (fun e => e) (fun _ => rfl) t.pc hf)

theorem exec_inv {s s' : State} {sched : List Action} (h : Inv s)
    (hs : exec s sched = some s') : Inv s' := by
  induction sched generalizing s with
  | nil =>
    simp only [exec, Option.some.injEq] at hs
    exact hs ▸ h
  | cons a rest ih =>
    simp only [exec] at hs
    split at hs
    · cases hs
    · next s1 h1 => exact ih (step_inv h h1) hs

/-! ## The constructor -/

theorem spawnLoop_overflow (tid : Nat → Nat) (k : Nat) (hk : 4294967296 ≤ k) (fuel i : Nat)
    (threads : List Worker) (hi : i < 4294967296) :
    spawnLoop tid k fuel i threads = none := by
  induction fuel generalizing i threads with
  | zero => rfl
  | succ n ih =>
    unfold spawnLoop
    rw [if_pos (by omega)]
    exact ih _ _ (Nat.mod_lt _ (by decide))

theorem spawnLoop_spec (tid : Nat → Nat) (k : Nat) (fuel i : Nat) (threads ths : List Worker)
    (hi : i < 4294967296) (hik : i ≤ k) (hlen : threads.length = i)
    (h : spawnLoop tid k fuel i threads = some ths) :
    ths = threads ++ (List.range' i (k - i)).map fun n => ⟨tid n, PC.top⟩ := by
  induction fuel generalizing i threads with
  | zero => cases h
  | succ n ih =>
    unfold spawnLoop at h
    split at h
    · next hlt =>
      by_cases hw : i + 1 < 4294967296
      · rw [Nat.mod_eq_of_lt hw] at h
        have := ih (i + 1) _ hw (by omega) (by simp [hlen]) h
        rw [this, hlen]
        have e : k - i = (k - (i + 1)) + 1 := by omega
        rw [e, List.range'_succ]
        simp
      · have hk : 4294967296 ≤ k := by omega
        rw [spawnLoop_overflow tid k hk n _ _ (Nat.mod_lt _ (by decide))] at h
        cases h
    · next hge =>
      have e : k - i = 0 := by omega
      simp only [Option.some.injEq] at h
      rw [e, ← h]
      simp

theorem spawnLoop_total (tid : Nat → Nat) (k : Nat) (hk : k < 4294967296) (fuel i : Nat)
    (threads : List Worker) (hik : i ≤ k) (hf : k - i < fuel) :
    ∃ ths, spawnLoop tid k fuel i threads = some ths := by
  induction fuel generalizing i threads with
  | zero => omega
  | succ n ih =>
    unfold spawnLoop
    split
    · next hlt =>
      rw [Nat.mod_eq_of_lt (by omega)]
      exact ih (i + 1) _ (by omega) (by omega)
    · exact ⟨threads, rfl⟩

theorem construct_eq {tid : Nat → Nat} {fuel k : Nat} {s0 : State}
    (h : construct tid fuel k = some s0) : s0 = fresh tid k := by
  unfold construct at h
  cases hs : spawnLoop tid k fuel 0 [] with
  | none => simp [hs] at h
  | some ths =>
    simp only [hs, Option.map_some', Option.some.injEq] at h
    have := spawnLoop_spec tid k fuel 0 [] ths (by decide) (Nat.zero_le _) rfl hs
    rw [← h, this]
    simp [fresh, List.range_eq_range']

theorem construct_some (tid : Nat → Nat) (k : Nat) (hk : k < 4294967296) :
    construct tid (k + 1) k = some (fresh tid k) := by
  obtain ⟨ths, h⟩ := spawnLoop_total tid k hk (k + 1) 0 [] (Nat.zero_le _) (by omega)
  have hc : construct tid (k + 1) k = some
      { threads := ths, jobs := [], threadsWaiting := 0, terminate := false,
        paused := false, mutex := none, submitted := [], dequeued := [],
        completed := [] } := by
    simp [construct, h]
  rw [hc, construct_eq hc]

theorem fresh_inv (tid : Nat → Nat) (k : Nat) : Inv (fresh tid k) := by
  have top : ∀ (i : Nat) (t : Worker), (fresh tid k).threads[i]? = some t → t.pc = PC.top := by
    intro i t ht
    simp only [fresh, List.getElem?_map] at ht
    cases hr : (List.range k)[i]? with
    | none => simp [hr] at ht
    | some n =>
      simp only [hr, Option.map_some', Option.some.injEq] at ht
      rw [← ht]
  refine ⟨?_, ?_, ?_, ?_⟩
  · simp [fresh, List.countP_map, Function.comp_def, inWait]
  · intro i t ht hl
    rw [top i t ht] at hl
    cases hl
  · intro i t ht
    rw [top i t ht]; rfl
  · simp [fresh, held, List.flatMap_map, heldJob]

theorem reachable_inv {tid : Nat → Nat} {k : Nat} {s : State} (h : Reachable tid k s) :
    Inv s := by
  obtain ⟨fuel, s0, sched, h0, h1⟩ := h
  rw [construct_eq h0] at h1
  exact exec_inv (fresh_inv tid k) h1

/-! ## Frame properties of the steps -/

theorem map_id_set {l : List Worker} {i : Nat} {t : Worker} (pc' : PC)
    (h : l[i]? = some t) :
    (l.set i ⟨t.id, pc'⟩).map (fun u => u.id) = l.map fun u => u.id := by
  obtain ⟨l1, l2, h1, -, h3⟩ := threads_split l i t h
  rw [h3, h1]
  simp

theorem notifyOne_ids (s : State) (w : Nat) : ids (notifyOne s w) = ids s := by
  unfold notifyOne
  split
  · next id heq => exact map_id_set PC.woken heq
  · rfl

theorem notifyAll_ids (s : State) : ids (notifyAll s) = ids s := by
  simp only [ids, notifyAll, List.map_map]
  congr 1
  funext t
  simp only [Function.comp]
  split <;> rfl

theorem step_ids {s s' : State} {a : Action} (hs : step s a = some s') : ids s' = ids s := by
  cases a with
  | worker i =>
    simp only [step] at hs
    split at hs
    · cases hs
    · next t ht =>
      cases hr : threadTask s i t.pc with
      | none => simp [hr] at hs
      | some r =>
        simp only [hr, Option.map_some', Option.some.injEq] at hs
        subst hs
        have := threadTask_threads hr
        simp only [ids, this]
        exact map_id_set r.1 ht
  | wake i =>
    simp only [step] at hs
    split at hs
    · next id heq => cases hs; exact map_id_set PC.woken heq
    · cases hs
  | fail i =>
    simp only [step] at hs
    split at hs
    · next id j heq => cases hs; exact map_id_set (PC.dead j) heq
    · cases hs
  | submit j w =>
    simp only [step] at hs
    split at hs
    · cases hs; exact notifyOne_ids _ w
    · cases hs
  | clear =>
    simp only [step] at hs
    split at hs
    · cases hs; rfl
    · cases hs
  | setPaused b => simp only [step, Option.some.injEq] at hs; subst hs; rfl
  | notifyAll => simp only [step, Option.some.injEq] at hs; subst hs; exact notifyAll_ids s
  | setTerminate => simp only [step, Option.some.injEq] at hs; subst hs; rfl

theorem exec_ids {s s' : State} {sched : List Action} (hs : exec s sched = some s') :
    ids s' = ids s := by
  induction sched generalizing s with
  | nil => simp only [exec, Option.some.injEq] at hs; rw [hs]
  | cons a rest ih =>
    simp only [exec] at hs
    split at hs
    · cases hs
    · next s1 h1 => rw [ih hs, step_ids h1]

theorem threadCount_eq_ids (s : State) : threadCount s = (ids s).length := by
  simp [threadCount, ids]

theorem wait_state {fuel : Nat} {s : State} {r : Nat × State} (h : wait fuel s = some r) :
    r.2 = s := by
  induction fuel generalizing r with
  | zero => cases h
  | succ n ih =>
    unfold wait at h
    split at h
    · cases hw : wait n s with
      | none => simp [hw] at h
      | some q =>
        simp only [hw, Option.map_some', Option.some.injEq] at h
        rw [← h]; exact (ih hw : q.2 = s)
    · simp only [Option.some.injEq] at h
      rw [← h]

theorem popAll_nil (q : List Job) : popAll q = [] := by
  induction q with
  | nil => rfl
  | cons _ _ ih => exact ih

theorem threadTask_take {s s1 : State} {i : Nat} {pc pc' : PC}
    (h : threadTask s i pc = some (pc', s1)) :
    (s1.jobs = s.jobs ∧ s1.dequeued = s.dequeued ∧ heldJob pc' ⊆ heldJob pc) ∨
    (pc = PC.take ∧ ∃ j, pc' = PC.unlock j ∧ s.jobs = j :: s1.jobs ∧
      s1.dequeued = s.dequeued ++ [j]) := by
  cases pc <;> simp only [threadTask] at h <;> (try split at h) <;> simp at h <;>
    obtain ⟨rfl, rfl⟩ := h <;> simp_all [heldJob]

theorem soft_refl (t : Worker) : Soft t t := ⟨rfl, Or.inl rfl⟩

theorem forall2_soft_refl (l : List Worker) : List.Forall₂ Soft l l := by
  induction l with
  | nil => exact List.Forall₂.nil
  | cons a l ih => exact List.Forall₂.cons (soft_refl a) ih

theorem forall2_soft_set {l : List Worker} {i : Nat} {t t' : Worker} (h : l[i]? = some t)
    (hs : Soft t t') : List.Forall₂ Soft l (l.set i t') := by
  obtain ⟨l1, l2, h1, -, h3⟩ := threads_split l i t h
  rw [h3]
  conv => lhs; rw [h1]
  exact List.rel_append (forall2_soft_refl l1) (List.Forall₂.cons hs (forall2_soft_refl l2))

theorem forall2_soft_notifyAll (l : List Worker) :
    List.Forall₂ Soft l (l.map fun t => if t.pc = PC.blocked then ⟨t.id, PC.woken⟩ else t) := by
  induction l with
  | nil => exact List.Forall₂.nil
  | cons a l ih =>
    refine List.Forall₂.cons ?_ ih
    show Soft a (if a.pc = PC.blocked then ⟨a.id, PC.woken⟩ else a)
    split
    · next hb => exact ⟨rfl, Or.inr (Or.inl ⟨hb, rfl⟩)⟩
    · exact soft_refl a

theorem notifyOne_soft (s : State) (w : Nat) :
    List.Forall₂ Soft s.threads (notifyOne s w).threads ∧
      (notifyOne s w).jobs = s.jobs ∧ (notifyOne s w).submitted = s.submitted ∧
      (notifyOne s w).threadsWaiting = s.threadsWaiting ∧
      (notifyOne s w).mutex = s.mutex ∧ (notifyOne s w).dequeued = s.dequeued ∧
      (notifyOne s w).completed = s.completed ∧
      (notifyOne s w).terminate = s.terminate ∧ (notifyOne s w).paused = s.paused := by
  unfold notifyOne
  split
  · next id heq =>
    exact ⟨forall2_soft_set heq ⟨rfl, Or.inr (Or.inl ⟨rfl, rfl⟩)⟩, rfl, rfl, rfl, rfl, rfl,
      rfl, rfl, rfl⟩
  · exact ⟨forall2_soft_refl _, rfl, rfl, rfl, rfl, rfl, rfl, rfl, rfl⟩

/-- Everything an action other than a worker step does. -/
theorem step_other {s s' : State} {a : Action} (hs : step s a = some s')
    (ha : a.isWorker = false) :
    List.Forall₂ Soft s.threads s'.threads ∧
    s'.threadsWaiting = s.threadsWaiting ∧ s'.mutex = s.mutex ∧
    s'.dequeued = s.dequeued ∧ s'.completed = s.completed ∧
    (s'.terminate = s.terminate ∨ (a = Action.setTerminate ∧ s'.terminate = true)) ∧
    (s'.paused = s.paused ∨ ∃ b, a = Action.setPaused b ∧ s'.paused = b) ∧
    ((a.isSubmit = false ∧ a.isClear = false ∧ s'.jobs = s.jobs ∧
        s'.submitted = s.submitted) ∨
      (∃ j w, a = Action.submit j w ∧ s'.jobs = s.jobs ++ [j] ∧
        s'.submitted = s.submitted ++ [j]) ∨
      (a = Action.clear ∧ s'.jobs = [] ∧ s'.submitted = s.submitted)) := by
  cases a with
  | worker i => cases ha
  | wake i =>
    simp only [step] at hs
    split at hs
    · next id heq =>
      cases hs
      exact ⟨forall2_soft_set heq ⟨rfl, Or.inr (Or.inl ⟨rfl, rfl⟩)⟩, rfl, rfl, rfl, rfl,
        Or.inl rfl, Or.inl rfl, Or.inl ⟨rfl, rfl, rfl, rfl⟩⟩
    · cases hs
  | fail i =>
    simp only [step] at hs
    split at hs
    · next id j heq =>
      cases hs
      exact ⟨forall2_soft_set heq ⟨rfl, Or.inr (Or.inr ⟨j, rfl, rfl⟩)⟩, rfl, rfl, rfl, rfl,
        Or.inl rfl, Or.inl rfl, Or.inl ⟨rfl, rfl, rfl, rfl⟩⟩
    · cases hs
  | submit j w =>
    simp only [step] at hs
    split at hs
    · cases hs
      obtain ⟨h1, h2, h3, h4, h5, h6, h7, h8, h9⟩ :=
        notifyOne_soft { s with jobs := s.jobs ++ [j], submitted := s.submitted ++ [j] } w
      exact ⟨h1, h4, h5, h6, h7, Or.inl h8, Or.inl h9, Or.inr (Or.inl ⟨j, w, rfl, h2, h3⟩)⟩
    · cases hs
  | clear =>
    simp only [step] at hs
    split at hs
    · cases hs
      exact ⟨forall2_soft_refl _, rfl, rfl, rfl, rfl, Or.inl rfl, Or.inl rfl,
        Or.inr (Or.inr ⟨rfl, popAll_nil _, rfl⟩)⟩
    · cases hs
  | setPaused b =>
    simp only [step, Option.some.injEq] at hs
    subst hs
    exact ⟨forall2_soft_refl _, rfl, rfl, rfl, rfl, Or.inl rfl, Or.inr ⟨b, rfl, rfl⟩,
      Or.inl ⟨rfl, rfl, rfl, rfl⟩⟩
  | notifyAll =>
    simp only [step, Option.some.injEq] at hs
    subst hs
    exact ⟨forall2_soft_notifyAll _, rfl, rfl, rfl, rfl, Or.inl rfl, Or.inl rfl,
      Or.inl ⟨rfl, rfl, rfl, rfl⟩⟩
  | setTerminate =>
    simp only [step, Option.some.injEq] at hs
    subst hs
    exact ⟨forall2_soft_refl _, rfl, rfl, rfl, rfl, Or.inr ⟨rfl, rfl⟩, Or.inl rfl,
      Or.inl ⟨rfl, rfl, rfl, rfl⟩⟩

/-- Everything a worker step does. -/
theorem step_worker {s s' : State} {i : Nat} (hs : step s (Action.worker i) = some s') :
    ∃ t pc' s1, s.threads[i]? = some t ∧ threadTask s i t.pc = some (pc', s1) ∧
      s' = { s1 with threads := s.threads.set i ⟨t.id, pc'⟩ } := by
  simp only [step] at hs
  split at hs
  · cases hs
  · next t ht =>
    cases hr : threadTask s i t.pc with
    | none => simp [hr] at hs
    | some r =>
      simp only [hr, Option.map_some', Option.some.injEq] at hs
      refine ⟨t, r.1, r.2, ht, hr, ?_⟩
      rw [← hs, threadTask_threads hr]

theorem soft_mem {l l' : List Worker} (h : List.Forall₂ Soft l l') {t' : Worker}
    (ht : t' ∈ l') : ∃ t ∈ l, Soft t t' := by
  induction h with
  | nil => cases ht
  | cons hab _ ih =>
    rcases List.mem_cons.1 ht with rfl | hm
    · exact ⟨_, List.mem_cons_self _ _, hab⟩
    · obtain ⟨t, h1, h2⟩ := ih hm
      exact ⟨t, List.mem_cons_of_mem _ h1, h2⟩

theorem soft_heldJob {t t' : Worker} (h : Soft t t') : heldJob t'.pc = heldJob t.pc := by
  obtain ⟨-, h1 | ⟨h1, h2⟩ | ⟨j, h1, h2⟩⟩ := h
  · rw [h1]
  · rw [h1, h2]; rfl
  · rw [h1, h2]; rfl

theorem step_jobs_nil {s s' : State} {a : Action} (hs : step s a = some s')
    (ha : a.isSubmit = false) (hj : s.jobs = []) : s'.jobs = [] := by
  cases hw : a.isWorker with
  | true =>
    cases a <;> simp [Action.isWorker] at hw
    obtain ⟨t, pc', s1, -, hr, rfl⟩ := step_worker hs
    rcases threadTask_take hr with ⟨h1, -, -⟩ | ⟨-, j, -, h2, -⟩
    · exact h1.trans hj
    · rw [hj] at h2; cases h2
  | false =>
    obtain ⟨-, -, -, -, -, -, -, h | ⟨j, w, rfl, -⟩ | ⟨-, h, -⟩⟩ := step_other hs hw
    · exact h.2.2.1.trans hj
    · cases ha
    · exact h

theorem exec_jobs_nil {s s' : State} {sched : List Action} (hs : exec s sched = some s')
    (ha : ∀ a ∈ sched, a.isSubmit = false) (hj : s.jobs = []) : s'.jobs = [] := by
  induction sched generalizing s with
  | nil => simp only [exec, Option.some.injEq] at hs; rw [← hs]; exact hj
  | cons a rest ih =>
    simp only [exec] at hs
    split at hs
    · cases hs
    · next s1 h1 =>
      exact ih hs (fun b hb => ha b (List.mem_cons_of_mem _ hb))
        (step_jobs_nil h1 (ha a (List.mem_cons_self _ _)) hj)

/-! ## The claims -/

/-- C5: for every queue content `clear()` terminates and leaves the queue
empty; `terminate`, `paused`, `threadsWaiting`, the workers, the mutex and the
histories are untouched; the call is enabled whenever the mutex is free; and
as long as nobody submits, whatever the workers do afterwards, `waitingJobs()`
returns 0. -/
theorem clear_empties_queue (s : State) :
    (clear s).jobs = [] ∧ waitingJobs (clear s) = 0 ∧
    (clear s).terminate = s.terminate ∧ (clear s).paused = s.paused ∧
    (clear s).threadsWaiting = s.threadsWaiting ∧ (clear s).threads = s.threads ∧
    (clear s).mutex = s.mutex ∧ (clear s).submitted = s.submitted ∧
    (clear s).dequeued = s.dequeued ∧ (clear s).completed = s.completed ∧
    (s.mutex = none → step s Action.clear = some (clear s)) ∧
    ∀ sched s', (∀ a ∈ sched, a.isSubmit = false) → exec (clear s) sched = some s' →
      waitingJobs s' = 0 := by
  have h0 : (clear s).jobs = [] := popAll_nil s.jobs
  refine ⟨h0, by simp [waitingJobs, h0], rfl, rfl, rfl, rfl, rfl, rfl, rfl, rfl, ?_, ?_⟩
  · intro hm
    simp [step, hm]
  · intro sched s' ha hs
    simp [waitingJobs, exec_jobs_nil hs ha h0]

/-- C6: with `tid` an injective assignment of thread identities, whenever the
constructor called with `threadCount = k` returns (and it does return for
every `k` the 32-bit loop counter can reach, `k = 0` included),
`threadCount()` is `k` and `ids()` is the list of the `k` pairwise distinct
identities in creation order; no schedule of submissions, `clear`, `pause`,
worker steps, job faults or destruction steps changes either result, and
neither do `pause` and `wait` themselves. -/
theorem fixed_worker_set (tid : Nat → Nat) (hinj : Function.Injective tid) (k : Nat) :
    (k < 4294967296 → ∃ s0, construct tid (k + 1) k = some s0) ∧
    ∀ fuel s0, construct tid fuel k = some s0 →
      threadCount s0 = k ∧ ids s0 = (List.range k).map tid ∧ (ids s0).length = k ∧
      (ids s0).Nodup ∧
      ∀ sched s, exec s0 sched = some s →
        threadCount s = k ∧ ids s = ids s0 ∧
        (∀ b, threadCount (pause b s) = k ∧ ids (pause b s) = ids s0) ∧
        ∀ fuel' r, wait fuel' s = some r → threadCount r.2 = k ∧ ids r.2 = ids s0 := by
  refine ⟨fun hk => ⟨_, construct_some tid k hk⟩, ?_⟩
  intro fuel s0 h0
  have e := construct_eq h0
  have hids : ids s0 = (List.range k).map tid := by
    rw [e]; simp [ids, fresh, Function.comp_def]
  have hlen : (ids s0).length = k := by rw [hids]; simp
  refine ⟨by rw [threadCount_eq_ids, hlen], hids, hlen, ?_, ?_⟩
  · rw [hids]
    exact (List.nodup_range k).map hinj
  · intro sched s hs
    have h1 : ids s = ids s0 := exec_ids hs
    have h2 : threadCount s = k := by rw [threadCount_eq_ids, h1, hlen]
    refine ⟨h2, h1, ?_, ?_⟩
    · intro b
      have h3 : ids (pause b s) = ids s := by
        cases b
        · exact notifyAll_ids _
        · rfl
      exact ⟨by rw [threadCount_eq_ids, h3, h1, hlen], h3.trans h1⟩
    · intro fuel' r hr
      rw [wait_state hr]
      exact ⟨h2, h1⟩

theorem fixed_worker_set_witness :
    Function.Injective (fun n : Nat => n + 100) ∧
      ∃ s0, construct (fun n => n + 100) 4 3 = some s0 ∧ threadCount s0 = 3 ∧
        ids s0 = [100, 101, 102] ∧
        ∀ s, exec s0 [Action.submit 7 0, Action.worker 0, Action.setPaused true,
          Action.clear] = some s → threadCount s = 3 ∧ ids s = ids s0 :=
  have hinj : Function.Injective (fun n : Nat => n + 100) := fun a b h => Nat.add_right_cancel h
  ⟨hinj, by
    obtain ⟨h1, h2⟩ := fixed_worker_set (fun n => n + 100) hinj 3
    obtain ⟨s0, h0⟩ := h1 (by decide)
    obtain ⟨h3, h4, -, -, h5⟩ := h2 4 s0 h0
    exact ⟨s0, h0, h3, by rw [h4]; rfl, fun s hs => ⟨(h5 _ s hs).1, (h5 _ s hs).2.1⟩⟩⟩

/-- C7: in every state in which the counter `threadsWaiting` equals
`threadCount()`, and in every state of a pool built with no worker, `wait()`
leaves its loop without entering the body and the pool state is unchanged. -/
theorem wait_idle_returns_immediately (s : State)
    (h : s.threadsWaiting = (threadCount s : Int) ∨ ∃ tid, Reachable tid 0 s) (fuel : Nat) :
    wait (fuel + 1) s = some (0, s) := by
  have h1 : s.threadsWaiting = (s.threads.length : Int) := by
    rcases h with h | ⟨tid, hr⟩
    · exact h
    · have hi := reachable_inv hr
      obtain ⟨f, s0, sched, h0, hs⟩ := hr
      have hl : s.threads.length = 0 := by
        have := exec_ids hs
        have e := construct_eq h0
        have : (ids s).length = 0 := by rw [this, e]; simp [ids, fresh]
        simpa [ids] using this
      rw [hi.count, hl]
      have : s.threads = [] := List.length_eq_zero.1 hl
      rw [this]; rfl
  unfold wait
  simp [waitSpins, h1]

theorem wait_idle_returns_immediately_witness :
    twoWaiting.threadsWaiting = (threadCount twoWaiting : Int) ∧
      wait 1 twoWaiting = some (0, twoWaiting) :=
  ⟨rfl, wait_idle_returns_immediately twoWaiting (Or.inl rfl) 0⟩

theorem step_terminate_mono {s s' : State} {a : Action} (hs : step s a = some s')
    (ht : s.terminate = true) : s'.terminate = true := by
  cases hw : a.isWorker with
  | true =>
    cases a <;> simp [Action.isWorker] at hw
    obtain ⟨t, pc', s1, -, hr, rfl⟩ := step_worker hs
    exact (threadTask_terminate hr).trans ht
  | false =>
    obtain ⟨-, -, -, -, -, h | ⟨-, h⟩, -⟩ := step_other hs hw
    · exact h.trans ht
    · exact h

theorem exec_terminate_mono {s s' : State} {sched : List Action}
    (hs : exec s sched = some s') (ht : s.terminate = true) : s'.terminate = true := by
  induction sched generalizing s with
  | nil => simp only [exec, Option.some.injEq] at hs; rw [← hs]; exact ht
  | cons a rest ih =>
    simp only [exec] at hs
    split at hs
    · cases hs
    · next s1 h1 => exact ih hs (step_terminate_mono h1 ht)

theorem reachable_atTake : Reachable id 1 atTake :=
  ⟨2, fresh id 1, scheduleToTake, by decide, by decide⟩

theorem reachable_asleep : Reachable id 1 asleep :=
  ⟨2, fresh id 1, scheduleToSleep, by decide, by decide⟩

/-- C9: in every reachable state a worker between the lock and the unlock is
the owner of the mutex; a worker standing at the last `terminate` check with
`terminate` false, and a worker standing at the dequeue, find at least one job
in the queue, so `front()` and `pop()` are defined and the step takes the
first job; and `terminate`, once true, stays true along every schedule. -/
theorem dequeue_safety (tid : Nat → Nat) (k : Nat) (s : State) (h : Reachable tid k s)
    (i : Nat) (t : Worker) (ht : s.threads[i]? = some t) :
    (holdsLock t.pc = true → s.mutex = some i) ∧
    (t.pc = PC.recheck → s.terminate = false → s.jobs ≠ []) ∧
    (t.pc = PC.take → ∃ j rest, s.jobs = j :: rest ∧
      step s (Action.worker i) = some
        { s with jobs := rest, dequeued := s.dequeued ++ [j],
                 threads := s.threads.set i ⟨t.id, PC.unlock j⟩ }) ∧
    (∀ sched s', exec s sched = some s' → s.terminate = true → s'.terminate = true) := by
  have hi := reachable_inv h
  refine ⟨hi.owner i t ht, ?_, ?_, fun sched s' hs => exec_terminate_mono hs⟩
  · intro hp hte
    have := hi.front i t ht
    rw [hp] at this
    simp only [frontOk, hte, Bool.false_or, Bool.not_eq_true', List.isEmpty_eq_false] at this
    simpa using this
  · intro hp
    have := hi.front i t ht
    rw [hp] at this
    cases hj : s.jobs with
    | nil => simp [frontOk, hj] at this
    | cons j rest =>
      refine ⟨j, rest, rfl, ?_⟩
      simp [step, ht, hp, threadTask, hj]

theorem dequeue_safety_witness :
    Reachable id 1 atTake ∧ atTake.threads[0]? = some ⟨0, PC.take⟩ ∧
      atTake.mutex = some 0 ∧
      ∃ j rest, atTake.jobs = j :: rest ∧
        step atTake (Action.worker 0) = some
          { atTake with jobs := rest, dequeued := atTake.dequeued ++ [j],
                        threads := atTake.threads.set 0 ⟨0, PC.unlock j⟩ } :=
  ⟨reachable_atTake, rfl,
    (dequeue_safety id 1 atTake reachable_atTake 0 ⟨0, PC.take⟩ rfl).1 rfl,
    (dequeue_safety id 1 atTake reachable_atTake 0 ⟨0, PC.take⟩ rfl).2.2.1 rfl⟩

/-- C8, the claim as written fails: right after construction of a pool with
one worker the counter is 0 and `threadCount()` is 1, although no worker is
dequeuing or running a job. -/
theorem idle_worker_not_counted :
    construct id 2 1 = some (fresh id 1) ∧ (fresh id 1).threadsWaiting = 0 ∧
      threadCount (fresh id 1) = 1 ∧
      (fresh id 1).threads.all (fun t => !dequeuingOrRunning t.pc) = true := by
  decide

/-- C8, amended: in every reachable state `threadsWaiting` is the number of
workers inside the condition wait (after the increment, before the
decrement), so it lies between 0 and `threadCount()`; it equals
`threadCount()` exactly when every worker is inside the condition wait, and
then no worker is dequeuing or running a job. -/
theorem threadsWaiting_invariant (tid : Nat → Nat) (k : Nat) (s : State)
    (h : Reachable tid k s) :
    s.threadsWaiting = ((s.threads.countP fun t => inWait t.pc : Nat) : Int) ∧
    0 ≤ s.threadsWaiting ∧ s.threadsWaiting ≤ (threadCount s : Int) ∧
    (s.threadsWaiting = (threadCount s : Int) ↔ ∀ t ∈ s.threads, inWait t.pc = true) ∧
    (s.threadsWaiting = (threadCount s : Int) →
      ∀ t ∈ s.threads, dequeuingOrRunning t.pc = false) := by
  have hi := reachable_inv h
  have hle : s.threads.countP (fun t => inWait t.pc) ≤ s.threads.length :=
    List.countP_le_length _
  have hiff : s.threadsWaiting = (threadCount s : Int) ↔ ∀ t ∈ s.threads, inWait t.pc = true := by
    rw [hi.count, threadCount]
    constructor
    · intro e
      exact List.countP_eq_length.1 (by exact_mod_cast e)
    · intro e
      exact_mod_cast List.countP_eq_length.2 e
  refine ⟨hi.count, by rw [hi.count]; exact Int.natCast_nonneg _, ?_, hiff, ?_⟩
  · rw [hi.count, threadCount]; exact_mod_cast hle
  · intro e t ht
    have := hiff.1 e t ht
    cases hp : t.pc <;> simp_all [inWait, dequeuingOrRunning]

theorem threadsWaiting_invariant_witness :
    Reachable id 1 asleep ∧ asleep.threadsWaiting = 1 ∧
      ∀ t ∈ asleep.threads, dequeuingOrRunning t.pc = false :=
  ⟨reachable_asleep, rfl,
    (threadsWaiting_invariant id 1 asleep reachable_asleep).2.2.2.2 rfl⟩

/-! ## Workers that cannot dequeue -/

theorem threadTask_quiet {s s1 : State} {i : Nat} {pc pc' : PC}
    (h : threadTask s i pc = some (pc', s1))
    (hg : s.paused = true ∨ s.terminate = true) (hq : quiet s pc = true) :
    quiet s1 pc' = true ∧ s1.jobs = s.jobs ∧ s1.dequeued = s.dequeued ∧
      heldJob pc' ⊆ heldJob pc := by
  cases pc <;> simp only [threadTask] at h <;> (try split at h) <;> simp at h <;>
    obtain ⟨rfl, rfl⟩ := h <;> simp_all [quiet, heldJob]

theorem quiet_mono (s s1 : State) (ht : s.terminate = true → s1.terminate = true) (pc : PC)
    (h : quiet s pc = true) : quiet s1 pc = true := by
  cases pc <;> simp_all [quiet]

theorem soft_quiet (s : State) {t t' : Worker} (h : Soft t t') (hq : quiet s t.pc = true) :
    quiet s t'.pc = true := by
  obtain ⟨-, h1 | ⟨h1, h2⟩ | ⟨j, h1, h2⟩⟩ := h
  · rw [h1]; exact hq
  · rw [h2]; rfl
  · rw [h2]; rfl

theorem mem_held {s : State} {j : Job} : j ∈ held s ↔ ∃ t ∈ s.threads, j ∈ heldJob t.pc := by
  simp [held, List.mem_flatMap]

/-- While `paused` or `terminate` is set and every worker is quiet, no step
takes a job from the queue. -/
theorem step_quiet {s s' : State} {a : Action} (hs : step s a = some s')
    (hg : s.paused = true ∨ s.terminate = true)
    (hq : ∀ t ∈ s.threads, quiet s t.pc = true) :
    (∀ t ∈ s'.threads, quiet s' t.pc = true) ∧ s'.dequeued = s.dequeued ∧
      (∀ j ∈ held s', j ∈ held s) ∧
      (a.isWorker = true → s'.jobs = s.jobs ∧ s'.paused = s.paused) := by
  cases hw : a.isWorker with
  | true =>
    cases a <;> simp [Action.isWorker] at hw
    obtain ⟨t, pc', s1, ht, hr, rfl⟩ := step_worker hs
    have htm : t ∈ s.threads := List.getElem?_mem ht
    obtain ⟨h1, h2, h3, h4⟩ := threadTask_quiet hr hg (hq t htm)
    have h5 : s1.paused = s.paused := threadTask_paused hr
    refine ⟨?_, h3, ?_, fun _ => ⟨h2, h5⟩⟩
    · intro u hu
      rcases List.mem_or_eq_of_mem_set hu with hu | rfl
      · exact quiet_mono s s1 (fun e => (threadTask_terminate hr).trans e) _ (hq u hu)
      · exact h1
    · intro j hj
      obtain ⟨u, hu, hju⟩ := mem_held.1 hj
      rcases List.mem_or_eq_of_mem_set hu with hu | rfl
      · exact mem_held.2 ⟨u, hu, hju⟩
      · exact mem_held.2 ⟨t, htm, h4 hju⟩
  | false =>
    obtain ⟨h1, -, -, h4, -, h6, -, -⟩ := step_other hs hw
    refine ⟨?_, h4, ?_, fun e => by cases e⟩
    · intro u hu
      obtain ⟨t, ht, hsoft⟩ := soft_mem h1 hu
      refine quiet_mono s s' ?_ _ (soft_quiet s hsoft (hq t ht))
      rcases h6 with h | ⟨-, h⟩
      · exact fun e => h.trans e
      · exact fun _ => h
    · intro j hj
      obtain ⟨u, hu, hju⟩ := mem_held.1 hj
      obtain ⟨t, ht, hsoft⟩ := soft_mem h1 hu
      rw [soft_heldJob hsoft] at hju
      exact mem_held.2 ⟨t, ht, hju⟩

theorem inv_quiet {s : State} (h : Inv s) (hj : s.jobs = []) :
    ∀ t ∈ s.threads, quiet s t.pc = true := by
  intro t ht
  obtain ⟨i, hi⟩ := List.getElem?_of_mem ht
  have := h.front i t hi
  cases hp : t.pc <;> simp_all [frontOk, quiet]

theorem submissions_of_not_submit {a : Action} (rest : List Action)
    (h : a.isSubmit = false) : submissions (a :: rest) = submissions rest := by
  cases a <;> first | rfl | cases h

theorem exec_paused {s s' : State} {sched : List Action} (hs : exec s sched = some s')
    (hp : s.paused = true) (hq : ∀ t ∈ s.threads, quiet s t.pc = true)
    (ha : ∀ a ∈ sched, a.keepsPause = true) :
    s'.jobs = s.jobs ++ submissions sched ∧ s'.dequeued = s.dequeued ∧ s'.paused = true := by
  induction sched generalizing s with
  | nil =>
    simp only [exec, Option.some.injEq] at hs
    subst hs
    exact ⟨by simp [submissions], rfl, hp⟩
  | cons a rest ih =>
    simp only [exec] at hs
    split at hs
    · cases hs
    · next s1 h1 =>
      have hk := ha a (List.mem_cons_self _ _)
      obtain ⟨q1, q2, -, q4⟩ := step_quiet h1 (Or.inl hp) hq
      have hjp : s1.jobs ++ submissions rest = s.jobs ++ submissions (a :: rest) ∧
          s1.paused = true := by
        cases hw : a.isWorker with
        | true =>
          obtain ⟨e1, e2⟩ := q4 hw
          have : a.isSubmit = false := by cases a <;> first | rfl | cases hw
          rw [submissions_of_not_submit rest this, e1]
          exact ⟨rfl, e2.trans hp⟩
        | false =>
          obtain ⟨-, -, -, -, -, -, h7, h8⟩ := step_other h1 hw
          constructor
          · rcases h8 with ⟨n1, -, n3, -⟩ | ⟨j, w, rfl, n2, -⟩ | ⟨rfl, -⟩
            · rw [submissions_of_not_submit rest n1, n3]
            · rw [n2]; simp [submissions]
            · cases hk
          · rcases h7 with h | ⟨b, rfl, h⟩
            · exact h.trans hp
            · rw [h]; exact hk
      obtain ⟨r1, r2, r3⟩ := ih hs hjp.2 q1 (fun b hb => ha b (List.mem_cons_of_mem _ hb))
      exact ⟨r1.trans hjp.1, r2.trans q2, r3⟩

theorem exec_terminated {s s' : State} {sched : List Action} (hs : exec s sched = some s')
    (ht : s.terminate = true) (hq : ∀ t ∈ s.threads, quiet s t.pc = true) :
    s'.dequeued = s.dequeued ∧ ∀ j ∈ held s', j ∈ held s := by
  induction sched generalizing s with
  | nil =>
    simp only [exec, Option.some.injEq] at hs
    subst hs
    exact ⟨rfl, fun _ h => h⟩
  | cons a rest ih =>
    simp only [exec] at hs
    split at hs
    · cases hs
    · next s1 h1 =>
      obtain ⟨q1, q2, q3, -⟩ := step_quiet h1 (Or.inr ht) hq
      obtain ⟨r1, r2⟩ := ih hs (step_terminate_mono h1 ht) q1
      exact ⟨r1.trans q2, fun j hj => q3 j (r2 j hj)⟩

/-- C3: take any reachable state with an empty queue (a job may still be
running, none needs to), call `pause(true)`, and let any schedule follow that
contains no `pause(false)`, no `clear()` and no destruction: no step dequeues
a job, the queue holds exactly the jobs submitted since, in order, and
`waitingJobs()` is their number `M`, for every `M` and every `threadCount`. -/
theorem pause_retains_jobs (tid : Nat → Nat) (k fuel : Nat) (s0 s s' : State)
    (pre sched : List Action) (h0 : construct tid fuel k = some s0)
    (hpre : exec s0 pre = some s) (hj : s.jobs = [])
    (ha : ∀ a ∈ sched, a.keepsPause = true)
    (hs : exec (pause true s) sched = some s') :
    s'.jobs = submissions sched ∧ waitingJobs s' = (submissions sched).length ∧
      s'.dequeued = s.dequeued ∧ s'.paused = true := by
  have hi : Inv s := reachable_inv ⟨fuel, s0, pre, h0, hpre⟩
  have hq : ∀ t ∈ (pause true s).threads, quiet (pause true s) t.pc = true :=
    fun t ht => quiet_mono s (pause true s) (fun e => e) _ (inv_quiet hi hj t ht)
  obtain ⟨r1, r2, r3⟩ := exec_paused hs rfl hq ha
  have r1' : s'.jobs = submissions sched := by
    rw [r1]
    show s.jobs ++ _ = _
    rw [hj]; rfl
  exact ⟨r1', by rw [waitingJobs, r1'], r2, r3⟩

theorem pause_retains_jobs_witness :
    construct id 2 1 = some (fresh id 1) ∧ exec (fresh id 1) scheduleToSleep = some asleep ∧
      asleep.jobs = [] ∧ (∀ a ∈ schedulePaused, a.keepsPause = true) ∧
      (exec (pause true asleep) schedulePaused).isSome = true ∧
      ∀ s', exec (pause true asleep) schedulePaused = some s' →
        s'.jobs = [1, 2] ∧ waitingJobs s' = 2 :=
  ⟨by decide, by decide, rfl, by decide, by decide, fun s' hs =>
    ⟨(pause_retains_jobs id 1 2 (fresh id 1) asleep s' scheduleToSleep schedulePaused
        (by decide) (by decide) rfl (by decide) hs).1,
      (pause_retains_jobs id 1 2 (fresh id 1) asleep s' scheduleToSleep schedulePaused
        (by decide) (by decide) rfl (by decide) hs).2.1⟩⟩

/-- C4: take any reachable state in which the destructor has set `terminate`
and the queue is empty (cleared, nothing submitted in between).  Along every
schedule from there `terminate` stays set, no job is dequeued, the only jobs
in the hands of workers are those that were already dequeued, and without a
submission the queue stays empty.  A worker at loop entry leaves the loop in
one step, and a worker waking from its wait leaves it after re-acquiring the
mutex, reading `terminate`, decrementing the counter and reading `terminate`
again, all with the queue untouched. -/
theorem no_dequeue_after_destruction (tid : Nat → Nat) (k : Nat) (s : State)
    (h : Reachable tid k s) (hj : s.jobs = []) (ht : s.terminate = true) :
    (∀ sched s', exec s sched = some s' →
      s'.terminate = true ∧ s'.dequeued = s.dequeued ∧ (∀ j ∈ held s', j ∈ held s) ∧
      ((∀ a ∈ sched, a.isSubmit = false) → s'.jobs = [])) ∧
    (∀ (i : Nat) (t : Worker), s.threads[i]? = some t → t.pc = PC.top →
      step s (Action.worker i) = some { s with threads := s.threads.set i ⟨t.id, PC.done⟩ }) ∧
    (∀ (i : Nat) (t : Worker), s.threads[i]? = some t → t.pc = PC.woken → s.mutex = none →
      exec s [Action.worker i, Action.worker i, Action.worker i, Action.worker i] = some
        { s with threadsWaiting := s.threadsWaiting - 1,
                 threads := s.threads.set i ⟨t.id, PC.done⟩ }) := by
  have hi := reachable_inv h
  refine ⟨?_, ?_, ?_⟩
  · intro sched s' hs
    obtain ⟨r1, r2⟩ := exec_terminated hs ht (inv_quiet hi hj)
    exact ⟨exec_terminate_mono hs ht, r1, r2, fun ha => exec_jobs_nil hs ha hj⟩
  · intro i t hti hp
    simp [step, hti, hp, threadTask, ht]
  · intro i t hti hp hm
    have hlt : i < s.threads.length := by
      by_contra hc
      rw [List.getElem?_eq_none (Nat.le_of_not_lt hc)] at hti
      cases hti
    simp [exec, step, hti, hp, threadTask, ht, hm, hlt, List.getElem?_set]

theorem no_dequeue_after_destruction_witness :
    Reachable id 1 destructing ∧
      (exec (fresh id 1) scheduleToRun).map destructor = some destructing ∧
      destructing.jobs = [] ∧ destructing.terminate = true ∧
      destructing.submitted = [7, 8] ∧
      (exec destructing [Action.worker 0, Action.worker 0]).map (fun s => s.threads) =
        some [⟨0, PC.done⟩] ∧
      ∀ sched s', exec destructing sched = some s' → s'.dequeued = [7] :=
  have hr : Reachable id 1 destructing := ⟨2, fresh id 1, scheduleToDestruct, by decide, by decide⟩
  ⟨hr, by decide, rfl, rfl, rfl, by decide, fun sched s' hs =>
    ((no_dequeue_after_destruction id 1 destructing hr rfl rfl).1 sched s' hs).2.1⟩

/-! ## Order of the jobs -/

theorem threadTask_seq {s s1 : State} {i : Nat} {pc pc' : PC}
    (h : threadTask s i pc = some (pc', s1))
    (hd : s.dequeued = s.completed ++ heldJob pc) :
    s1.dequeued = s1.completed ++ heldJob pc' := by
  cases pc <;> simp only [threadTask] at h <;> (try split at h) <;> simp at h <;>
    obtain ⟨rfl, rfl⟩ := h <;> simp_all [heldJob]

/-- Without `clear()` the dequeued jobs followed by the pending ones are the
submitted ones. -/
theorem step_fifo {s s' : State} {a : Action} (hs : step s a = some s')
    (ha : a.isClear = false) (h : s.dequeued ++ s.jobs = s.submitted) :
    s'.dequeued ++ s'.jobs = s'.submitted ∧
      s'.submitted = s.submitted ++ submissions [a] := by
  cases hw : a.isWorker with
  | true =>
    cases a <;> simp [Action.isWorker] at hw
    obtain ⟨t, pc', s1, -, hr, rfl⟩ := step_worker hs
    have h3 : s1.submitted = s.submitted := threadTask_submitted hr
    refine ⟨?_, by simp [submissions, h3]⟩
    show s1.dequeued ++ s1.jobs = s1.submitted
    rcases threadTask_take hr with ⟨h1, h2, -⟩ | ⟨-, j, -, h1, h2⟩
    · rw [h1, h2, h3]; exact h
    · rw [h2, h3, ← h, h1]; simp
  | false =>
    obtain ⟨-, -, -, h4, -, -, -, h8⟩ := step_other hs hw
    rcases h8 with ⟨n1, -, n3, n4⟩ | ⟨j, w, rfl, n2, n3⟩ | ⟨rfl, -⟩
    · rw [h4, n3, n4, submissions_of_not_submit [] n1]
      exact ⟨h, by simp [submissions]⟩
    · rw [h4, n2, n3, ← h]
      exact ⟨by simp, by simp [submissions]⟩
    · cases ha

theorem exec_fifo {s s' : State} {sched : List Action} (hs : exec s sched = some s')
    (ha : ∀ a ∈ sched, a.isClear = false) (h : s.dequeued ++ s.jobs = s.submitted) :
    s'.dequeued ++ s'.jobs = s'.submitted ∧
      s'.submitted = s.submitted ++ submissions sched := by
  induction sched generalizing s with
  | nil =>
    simp only [exec, Option.some.injEq] at hs
    subst hs
    exact ⟨h, by simp [submissions]⟩
  | cons a rest ih =>
    simp only [exec] at hs
    split at hs
    · cases hs
    · next s1 h1 =>
      obtain ⟨q1, q2⟩ := step_fifo h1 (ha a (List.mem_cons_self _ _)) h
      obtain ⟨r1, r2⟩ := ih hs (fun b hb => ha b (List.mem_cons_of_mem _ hb)) q1
      refine ⟨r1, ?_⟩
      rw [r2, q2, List.append_assoc]
      congr 1
      cases a <;> rfl

/-- With a single worker the dequeued jobs are the completed ones followed by
the one in the worker's hands. -/
theorem step_seq {s s' : State} {a : Action} (hs : step s a = some s')
    (h : ∀ t, s.threads = [t] → s.dequeued = s.completed ++ heldJob t.pc) :
    ∀ t', s'.threads = [t'] → s'.dequeued = s'.completed ++ heldJob t'.pc := by
  intro t' ht'
  cases hw : a.isWorker with
  | true =>
    cases a <;> simp [Action.isWorker] at hw
    obtain ⟨t, pc', s1, hti, hr, rfl⟩ := step_worker hs
    have hthreads : s.threads = [t] ∧ t' = ⟨t.id, pc'⟩ := by
      have hset : s.threads.set _ ⟨t.id, pc'⟩ = [t'] := ht'
      obtain ⟨l1, l2, e1, -, e3⟩ := threads_split _ _ _ hti
      rw [e3] at hset
      cases l1 with
      | nil =>
        simp only [List.nil_append, List.cons.injEq] at hset
        rw [e1, hset.2]
        exact ⟨rfl, hset.1.symm⟩
      | cons x xs =>
        simp only [List.cons_append, List.cons.injEq] at hset
        have := hset.2
        simp at this
    obtain ⟨e1, rfl⟩ := hthreads
    exact (threadTask_seq hr (h t e1) : s1.dequeued = s1.completed ++ heldJob pc')
  | false =>
    obtain ⟨h1, -, -, h4, h5, -⟩ := step_other hs hw
    rw [ht', List.forall₂_cons_right_iff] at h1
    obtain ⟨t, u, hab, htl, e⟩ := h1
    rw [List.forall₂_nil_right_iff] at htl
    subst htl
    rw [h4, h5, soft_heldJob hab]
    exact h t e

theorem exec_seq {s s' : State} {sched : List Action} (hs : exec s sched = some s')
    (h : ∀ t, s.threads = [t] → s.dequeued = s.completed ++ heldJob t.pc) :
    ∀ t', s'.threads = [t'] → s'.dequeued = s'.completed ++ heldJob t'.pc := by
  induction sched generalizing s with
  | nil =>
    simp only [exec, Option.some.injEq] at hs
    subst hs
    exact h
  | cons a rest ih =>
    simp only [exec] at hs
    split at hs
    · cases hs
    · next s1 h1 => exact ih hs (step_seq h1 h)

/-- C1: in every execution without `clear()` (paused or not), the jobs dequeued
so far followed by the jobs still pending are the jobs submitted so far, in
order, so jobs leave the queue from the front and no job is dequeued more
often than it was submitted; and in a pool with `threadCount = 1` the dequeued
jobs are the completed ones followed by the job the worker has in hand, so the
jobs complete in submission order. -/
theorem fifo_dequeue (tid : Nat → Nat) (k fuel : Nat) (s0 s : State) (sched : List Action)
    (h0 : construct tid fuel k = some s0) (hc : ∀ a ∈ sched, a.isClear = false)
    (hs : exec s0 sched = some s) :
    s.dequeued ++ s.jobs = s.submitted ∧ s.submitted = submissions sched ∧
      (∀ j, s.dequeued.count j ≤ s.submitted.count j) ∧
      (k = 1 → ∃ t, s.threads = [t] ∧ s.completed ++ heldJob t.pc = s.dequeued ∧
        s.completed <+: s.submitted) := by
  have e := construct_eq h0
  subst e
  obtain ⟨r1, r2⟩ := exec_fifo hs hc rfl
  refine ⟨r1, by rw [r2]; rfl, ?_, ?_⟩
  · intro j
    rw [← r1, List.count_append]
    exact Nat.le_add_right _ _
  · intro hk
    subst hk
    have hlen : s.threads.length = 1 := by
      have h1 := exec_ids hs
      have h2 : (ids s).length = 1 := by rw [h1]; rfl
      simpa [ids] using h2
    obtain ⟨t, ht⟩ := List.length_eq_one.1 hlen
    have hinit : ∀ u, (fresh tid 1).threads = [u] →
        (fresh tid 1).dequeued = (fresh tid 1).completed ++ heldJob u.pc := by
      intro u hu
      simp [fresh, List.range_succ] at hu
      subst hu
      rfl
    have hseq := exec_seq hs hinit t ht
    refine ⟨t, ht, hseq.symm, ?_⟩
    exact ⟨heldJob t.pc ++ s.jobs, by rw [← List.append_assoc, ← hseq, r1]⟩

theorem fifo_dequeue_witness :
    construct id 2 1 = some (fresh id 1) ∧ (∀ a ∈ scheduleTwoJobs, a.isClear = false) ∧
      (exec (fresh id 1) scheduleTwoJobs).map (fun s => (s.submitted, s.completed)) =
        some ([7, 8], [7, 8]) ∧
      ∀ s, exec (fresh id 1) scheduleTwoJobs = some s →
        s.dequeued ++ s.jobs = s.submitted ∧ s.completed <+: s.submitted :=
  ⟨by decide, by decide, by decide, fun s hs =>
    have h := fifo_dequeue id 1 2 (fresh id 1) s scheduleTwoJobs (by decide) (by decide) hs
    ⟨h.1, by
      obtain ⟨t, -, -, h3⟩ := h.2.2.2 rfl
      exact h3⟩⟩

/-! ## Quiescence -/

theorem inv_full {s : State} (h : Inv s) :
    s.threadsWaiting = (s.threads.length : Int) ↔ ∀ t ∈ s.threads, inWait t.pc = true := by
  rw [h.count]
  constructor
  · intro e
    exact List.countP_eq_length.1 (by exact_mod_cast e)
  · intro e
    exact_mod_cast List.countP_eq_length.2 e

/-- When `wait()` returns, the counter equals the number of workers and the
state is the one it was called in. -/
theorem wait_some_counter {fuel : Nat} {s : State} {r : Nat × State}
    (h : wait fuel s = some r) :
    s.threadsWaiting = (threadCount s : Int) ∧ r = (0, s) := by
  induction fuel generalizing r with
  | zero => cases h
  | succ n ih =>
    unfold wait at h
    split at h
    · next hsp =>
      cases hw : wait n s with
      | none => simp [hw] at h
      | some q =>
        have := (ih hw).1
        simp [waitSpins, threadCount] at hsp
        exact absurd this hsp
    · next hsp =>
      simp only [Option.some.injEq] at h
      simp [waitSpins] at hsp
      exact ⟨hsp, h.symm⟩

/-- C2: the code at the failing input, the scenario of two workers and jobs 1,
2 and 3.  Right after construction `wait()` does spin (the counter is 0, not
2).  Once both workers sleep on the empty queue and the three jobs have been
submitted, the notified workers have not yet executed `--threadsWaiting`: the
pool is not paused, the counter is still 2, and `wait()` returns at once with
`waitingJobs()` equal to 3 and no job dequeued or executed.  Had the caller
looked later, after one worker ran the three jobs and went back to sleep,
`wait()` would have returned with the queue empty and all three executed. -/
theorem wait_returns_with_jobs_pending :
    construct id 3 2 = some (fresh id 2) ∧ wait 8 (fresh id 2) = none ∧
      exec (fresh id 2) scheduleABC = some pendingABC ∧
      pendingABC.paused = false ∧ pendingABC.threadsWaiting = 2 ∧
      threadCount pendingABC = 2 ∧ wait 1 pendingABC = some (0, pendingABC) ∧
      waitingJobs pendingABC = 3 ∧ pendingABC.dequeued = [] ∧
      pendingABC.completed = [] ∧
      (exec pendingABC (List.replicate 31 (Action.worker 0))).map
        (fun s => ((wait 1 s).map (fun r => r.1), waitingJobs s, s.completed)) =
        some (some 0, 0, [1, 2, 3]) := by
  decide

/-! ## The busy loop of `pause(false)` -/

theorem threadTask_parked {s s1 : State} {i : Nat} {pc pc' : PC}
    (h : threadTask s i pc = some (pc', s1)) (ht : s.terminate = false) (hj : s.jobs = [])
    (hp : parked pc = true) :
    parked pc' = true ∧ s1.jobs = s.jobs ∧ s1.terminate = s.terminate ∧
      s1.paused = s.paused := by
  cases pc <;> simp only [threadTask] at h <;> (try split at h) <;> simp at h <;>
    obtain ⟨rfl, rfl⟩ := h <;> simp_all [parked]

theorem soft_parked {t t' : Worker} (h : Soft t t') (hp : parked t.pc = true) :
    parked t'.pc = true := by
  obtain ⟨-, h1 | ⟨h1, h2⟩ | ⟨j, h1, h2⟩⟩ := h
  · rw [h1]; exact hp
  · rw [h2]; rfl
  · rw [h1] at hp; cases hp

theorem step_parked {s s' : State} {a : Action} (hs : step s a = some s')
    (ha : a.byWorker = true) (ht : s.terminate = false) (hj : s.jobs = [])
    (hp : ∀ t ∈ s.threads, parked t.pc = true) :
    s'.terminate = false ∧ s'.jobs = [] ∧ (∀ t ∈ s'.threads, parked t.pc = true) ∧
      s'.paused = s.paused := by
  cases hw : a.isWorker with
  | true =>
    cases a <;> simp [Action.isWorker] at hw
    obtain ⟨t, pc', s1, hti, hr, rfl⟩ := step_worker hs
    obtain ⟨h1, h2, h3, h4⟩ := threadTask_parked hr ht hj (hp t (List.getElem?_mem hti))
    refine ⟨h3.trans ht, h2.trans hj, ?_, h4⟩
    intro u hu
    rcases List.mem_or_eq_of_mem_set hu with hu | rfl
    · exact hp u hu
    · exact h1
  | false =>
    obtain ⟨h1, -, -, -, -, h6, h7, h8⟩ := step_other hs hw
    have hns : a.isSubmit = false := by cases a <;> first | rfl | cases ha
    refine ⟨?_, ?_, ?_, ?_⟩
    · rcases h6 with h | ⟨rfl, -⟩
      · exact h.trans ht
      · cases ha
    · exact step_jobs_nil hs hns hj
    · intro u hu
      obtain ⟨t, htm, hsoft⟩ := soft_mem h1 hu
      exact soft_parked hsoft (hp t htm)
    · rcases h7 with h | ⟨b, rfl, -⟩
      · exact h
      · cases ha

theorem exec_parked {s s' : State} {sched : List Action} (hs : exec s sched = some s')
    (ha : ∀ a ∈ sched, a.byWorker = true) (ht : s.terminate = false) (hj : s.jobs = [])
    (hp : ∀ t ∈ s.threads, parked t.pc = true) :
    (∀ t ∈ s'.threads, parked t.pc = true) ∧ s'.paused = s.paused := by
  induction sched generalizing s with
  | nil =>
    simp only [exec, Option.some.injEq] at hs
    subst hs
    exact ⟨hp, rfl⟩
  | cons a rest ih =>
    simp only [exec] at hs
    split at hs
    · cases hs
    · next s1 h1 =>
      obtain ⟨q1, q2, q3, q4⟩ := step_parked h1 (ha a (List.mem_cons_self _ _)) ht hj hp
      obtain ⟨r1, r2⟩ := ih hs (fun b hb => ha b (List.mem_cons_of_mem _ hb)) q1 q2 q3
      exact ⟨r1, r2.trans q4⟩

theorem exec_byWorker_nil {s s' : State} {sched : List Action} (hs : exec s sched = some s')
    (ha : ∀ a ∈ sched, a.byWorker = true) (hn : s.threads = []) : s' = s := by
  cases sched with
  | nil => simp only [exec, Option.some.injEq] at hs; exact hs.symm
  | cons a rest =>
    have hb := ha a (List.mem_cons_self _ _)
    cases a <;> simp [Action.byWorker] at hb <;> simp [exec, step, hn] at hs

theorem pauseLoop_spins {s : State} (h : pauseSpins s = true) (fuel : Nat) :
    pauseLoop fuel s = none := by
  induction fuel with
  | zero => rfl
  | succ n ih =>
    unfold pauseLoop
    simp [h, ih]

theorem parked_inWait {pc : PC} (h : parked pc = true) : inWait pc = true := by
  cases pc <;> simp_all [parked, inWait]

/-- C10: take a reachable state in which every worker is idle
(`threadsWaiting` equals `threadCount()`) and either the queue is empty and
destruction has not begun, or the pool has no worker at all (whatever the
queue holds).  A call of `pause(false)` sets `paused` to false and notifies,
and then, whatever steps the workers take, `paused` stays false and the loop
condition `threadsWaiting == threadCount()` stays true, so the busy loop never
exits. -/
theorem pause_false_blocks (tid : Nat → Nat) (k : Nat) (s : State) (h : Reachable tid k s)
    (hw : s.threadsWaiting = (threadCount s : Int))
    (hq : (s.jobs = [] ∧ s.terminate = false) ∨ k = 0) :
    (pause false s).paused = false ∧
    ∀ sched s', (∀ a ∈ sched, a.byWorker = true) → exec (pause false s) sched = some s' →
      s'.paused = false ∧ pauseSpins s' = true ∧ ∀ fuel, pauseLoop fuel s' = none := by
  have hi := reachable_inv h
  have hstep : exec s [Action.setPaused false, Action.notifyAll] = some (pause false s) := rfl
  have hi1 : Inv (pause false s) := exec_inv hi hstep
  refine ⟨rfl, ?_⟩
  intro sched s' ha hs
  have hi' : Inv s' := exec_inv hi1 hs
  have key : s'.paused = false ∧ ∀ t ∈ s'.threads, inWait t.pc = true := by
    rcases hq with ⟨hj, ht⟩ | hk
    · have hall := (inv_full hi).1 hw
      have hp : ∀ t ∈ s.threads, parked t.pc = true := by
        intro t htm
        obtain ⟨i, hti⟩ := List.getElem?_of_mem htm
        have h1 := hi.front i t hti
        have h2 := hall t htm
        cases hpc : t.pc <;> simp_all [frontOk, inWait, parked]
      have hp1 : ∀ t ∈ (pause false s).threads, parked t.pc = true := by
        intro u hu
        obtain ⟨t, htm, hsoft⟩ := soft_mem (forall2_soft_notifyAll s.threads) hu
        exact soft_parked hsoft (hp t htm)
      obtain ⟨r1, r2⟩ := exec_parked hs ha ht hj hp1
      exact ⟨r2, fun t htm => parked_inWait (r1 t htm)⟩
    · subst hk
      obtain ⟨f, s0, pre, h0, hpre⟩ := h
      have hn : s.threads = [] := by
        have e1 := exec_ids hpre
        have e2 : (ids s).length = 0 := by rw [e1, construct_eq h0]; rfl
        exact List.length_eq_zero.1 (by simpa [ids] using e2)
      have hn1 : (pause false s).threads = [] := by
        show (notifyAll _).threads = []
        simp [notifyAll, hn]
      rw [exec_byWorker_nil hs ha hn1]
      exact ⟨rfl, by rw [hn1]; intro t ht; cases ht⟩
  have hsp : pauseSpins s' = true := by
    simp only [pauseSpins, decide_eq_true_eq]
    exact (inv_full hi').2 key.2
  exact ⟨key.1, hsp, pauseLoop_spins hsp⟩

theorem pause_false_blocks_witness :
    Reachable id 1 asleep ∧ asleep.threadsWaiting = (threadCount asleep : Int) ∧
      asleep.jobs = [] ∧
      (exec (pause false asleep) [Action.worker 0, Action.worker 0, Action.worker 0]).map
        pauseSpins = some true ∧
      (∀ s', exec (pause false asleep) [Action.worker 0, Action.worker 0, Action.worker 0]
        = some s' → pauseLoop 1000 s' = none) ∧
      (exec (pause false asleep) [Action.submit 9 0, Action.worker 0, Action.worker 0,
        Action.worker 0, Action.worker 0, Action.worker 0]).map pauseSpins = some false :=
  ⟨reachable_asleep, rfl, rfl, by decide, fun s' hs =>
    ((pause_false_blocks id 1 asleep reachable_asleep rfl (Or.inl ⟨rfl, rfl⟩)).2 _ s'
      (by decide) hs).2.2 1000, by decide⟩

end ThreadPool
